import Mathlib

/-!
Shallow embedding of `src/include/DataStore.h` (class `DataStore`): an LRU
cache in front of a sqlite database, with a modification map deciding
write-back on eviction and a purge-to-storage pass in the destructor.

Modelling choices, each tied to the source:
* `m_cache_list : std::list<key_val_pair>` becomes `cache_list : List (Key × Val)`
  with the front of the C++ list at the head.
* `m_cache_map : unordered_map<string, list_itr>` stores iterators only so the
  list node of a key can be reached in O(1); semantically its observable
  content is its key set, so it becomes `cache_map : List Key` maintained by
  the same insert/erase calls the source makes.  The dereference
  `mapItr->second->second` becomes a lookup of the key in `cache_list`.
* `m_modification_map : unordered_map<string, bool>` becomes an association
  list with insert-or-assign (`operator[]`), erase, and find-with-default
  (`isModified`).
* The sqlite database behind `writeToDB` / `readFromDB` becomes `DB`: the rows
  of the `data` table (key is a PRIMARY KEY, so `INSERT OR REPLACE` is an
  upsert) plus a set `failing` of keys on which the SELECT of `readFromDB`
  fails with a store-level error (prepare/step returning an error, the only
  failure paths in the source).  For a key absent from the table the SELECT
  succeeds with zero rows, so `readFromDB` returns `true` and leaves its
  `value` out-parameter at its default-constructed value `""` — exactly as in
  the source.
* Each invocation of `writeToDB`, and the batched statement of
  `purgeToStorage`, is additionally recorded in a `saves` log so that claims
  about "save is invoked" are statements about the trace.
-/

namespace DataStoreModel

abbrev Key := String
abbrev Val := String

/-- Rows of the sqlite `data` table plus the keys whose SELECT fails with a
store-level error. -/
structure DB where
  rows : List (Key × Val)
  failing : List Key
deriving DecidableEq, Repr

/-- `SELECT value FROM data WHERE key = k LIMIT 1` on the rows: first (only)
row with the key. -/
def lookupRow (k : Key) : List (Key × Val) → Option Val
  | [] => none
  | (k', v) :: rest => if k' = k then some v else lookupRow k rest

/-- `INSERT OR REPLACE` on a PRIMARY KEY column: replace the row if present,
append it otherwise. -/
def upsertRow (k : Key) (v : Val) : List (Key × Val) → List (Key × Val)
  | [] => [(k, v)]
  | (k', v') :: rest => if k' = k then (k, v) :: rest else (k', v') :: upsertRow k v rest

/-- `DataStore::readFromDB`: on a store-level error return `false` (the
out-parameter is unused by the caller in that case); otherwise the SELECT
succeeds and `value` is the stored row, or stays `""` when no row matches. -/
def readFromDB (k : Key) (db : DB) : Bool × Val :=
  if k ∈ db.failing then (false, "")
  else (true, (lookupRow k db.rows).getD "")

/-- `DataStore::writeToDB`: one `INSERT OR REPLACE` for the pair. -/
def writeToDB (k : Key) (v : Val) (db : DB) : DB :=
  { db with rows := upsertRow k v db.rows }

/-- `unordered_map::operator[]` on the iterator map, observed on key sets:
insert the key if absent. -/
def mapInsertKey (k : Key) (m : List Key) : List Key :=
  if k ∈ m then m else k :: m

/-- `unordered_map::erase(key)`. -/
def mapEraseKey (k : Key) (m : List Key) : List Key :=
  m.filter (fun k' => k' ≠ k)

/-- `std::list::erase(itr)` where `itr` is the (unique) node holding `k`:
drop the first pair with that key. -/
def eraseEntry (k : Key) : List (Key × Val) → List (Key × Val)
  | [] => []
  | p :: rest => if p.1 = k then rest else p :: eraseEntry k rest

/-- `m_modification_map[key] = b`: insert-or-assign on the association list. -/
def modSet (k : Key) (b : Bool) : List (Key × Bool) → List (Key × Bool)
  | [] => [(k, b)]
  | (k', b') :: rest => if k' = k then (k, b) :: rest else (k', b') :: modSet k b rest

/-- `m_modification_map.erase(key)`. -/
def modErase (k : Key) (m : List (Key × Bool)) : List (Key × Bool) :=
  m.filter (fun p => p.1 ≠ k)

/-- `m_modification_map.find(key)`. -/
def modLookup (k : Key) : List (Key × Bool) → Option Bool
  | [] => none
  | (k', b) :: rest => if k' = k then some b else modLookup k rest

/-- `DataStore::isModified`: the stored flag, `false` when the key is absent. -/
def isModifiedIn (m : List (Key × Bool)) (k : Key) : Bool :=
  (modLookup k m).getD false

/-- The in-memory state of a `DataStore` object, together with the database it
talks to and the log of write-back invocations. -/
structure DataStore where
  cache_list : List (Key × Val)
  cache_map : List Key
  mod_map : List (Key × Bool)
  max_cache_size : Nat
  db : DB
  saves : List (Key × Val)
deriving DecidableEq, Repr

/-- The state right after the constructor: empty cache structures over a given
database. -/
def init (cap : Nat) (db : DB) : DataStore :=
  { cache_list := [], cache_map := [], mod_map := [], max_cache_size := cap,
    db := db, saves := [] }

/-- `DataStore::put`, line for line: find the key, push the pair at the front,
erase the old node if the key was resident, point the map at the front, mark
modified; then, if the map has grown past `m_max_cache_size`, erase the back
element from both maps, pop it from the list, and write it to the database
only if `isModified` — which reads the modification map AFTER the erase, as
the source does. -/
def DataStore.put (s : DataStore) (key value : String) : DataStore :=
  let found := key ∈ s.cache_map
  let list1 := (key, value) :: (if found then eraseEntry key s.cache_list else s.cache_list)
  let map1 := mapInsertKey key s.cache_map
  let mod1 := modSet key true s.mod_map
  if map1.length > s.max_cache_size then
    let lastElem := list1.getLastD ("", "")
    let map2 := mapEraseKey lastElem.1 map1
    let mod2 := modErase lastElem.1 mod1
    let list2 := list1.dropLast
    if isModifiedIn mod2 lastElem.1 then
      { s with cache_list := list2, cache_map := map2, mod_map := mod2,
               db := writeToDB lastElem.1 lastElem.2 s.db,
               saves := s.saves ++ [lastElem] }
    else
      { s with cache_list := list2, cache_map := map2, mod_map := mod2 }
  else
    { s with cache_list := list1, cache_map := map1, mod_map := mod1 }

/-- `DataStore::get`: on a hit splice the node to the front and return its
value; on a miss call `readFromDB`, and on success insert via `put`, overwrite
the modification flag with `false`, and return the value found through a fresh
map lookup — falling through to `""` when that lookup fails. -/
def DataStore.get (s : DataStore) (key : String) : String × DataStore :=
  if key ∈ s.cache_map then
    let value := (lookupRow key s.cache_list).getD ""
    (value, { s with cache_list := (key, value) :: eraseEntry key s.cache_list })
  else
    let res := readFromDB key s.db
    if res.1 then
      let s1 := s.put key res.2
      let s2 := { s1 with mod_map := modSet key false s1.mod_map }
      if key ∈ s2.cache_map then
        ((lookupRow key s2.cache_list).getD "", s2)
      else
        ("", s2)
    else
      ("", s)

/-- `DataStore::isInCache`. -/
def DataStore.isInCache (s : DataStore) (key : String) : Bool :=
  key ∈ s.cache_map

/-- `DataStore::size`. -/
def DataStore.size (s : DataStore) : Nat :=
  s.cache_map.length

/-- The batch built by the loop of `DataStore::purgeToStorage`: the resident
entries whose `isModified` flag is set, in list (recency) order. -/
def DataStore.purgeBatch (s : DataStore) : List (Key × Val) :=
  s.cache_list.filter (fun p => isModifiedIn s.mod_map p.1)

/-- The single batched `INSERT OR REPLACE ... VALUES (..),(..)` statement:
each row of the batch is upserted in order. -/
def execBatch (b : List (Key × Val)) (db : DB) : DB :=
  { db with rows := b.foldl (fun r p => upsertRow p.1 p.2 r) db.rows }

/-- `DataStore::purgeToStorage`: run the batched statement only when some
entry was modified (`dataAdded`). -/
def DataStore.purgeToStorage (s : DataStore) : DataStore :=
  let batch := s.purgeBatch
  if batch.isEmpty then s
  else { s with db := execBatch batch s.db, saves := s.saves ++ batch }

/-- `DataStore::~DataStore`: purge to storage only when the cache list is
nonempty (the sqlite close has no observable effect on the model). -/
def DataStore.destruct (s : DataStore) : DataStore :=
  if s.cache_list.isEmpty then s else s.purgeToStorage

/-- The public operations a client can issue. -/
inductive Op where
  | put (k v : String)
  | get (k : String)
  | contains (k : String)
  | size
deriving DecidableEq, Repr

/-- One client call. `isInCache` and `size` are read-only, so the state is
unchanged; `get` discards its returned string here. -/
def step (s : DataStore) (op : Op) : DataStore :=
  match op with
  | .put k v => s.put k v
  | .get k => (s.get k).2
  | .contains _ => s
  | .size => s

/-- A finite sequence of client calls. -/
def run (s : DataStore) (ops : List Op) : DataStore :=
  ops.foldl step s

end DataStoreModel

namespace DataStoreModel

/-! ### Basic lemmas about the container operations -/

/-- Key projection of an entry list. -/
def keysOf (l : List (Key × Val)) : List Key :=
  l.map Prod.fst

theorem keysOf_nil : keysOf [] = [] := rfl

theorem keysOf_cons (p : Key × Val) (l : List (Key × Val)) :
    keysOf (p :: l) = p.1 :: keysOf l := rfl

theorem keysOf_append (l1 l2 : List (Key × Val)) :
    keysOf (l1 ++ l2) = keysOf l1 ++ keysOf l2 :=
  List.map_append _ _ _

theorem mem_keysOf_eraseEntry_sub {a k : Key} {l : List (Key × Val)}
    (h : a ∈ keysOf (eraseEntry k l)) : a ∈ keysOf l := by
  induction l with
  | nil => simpa [eraseEntry] using h
  | cons p rest ih =>
    rw [eraseEntry] at h
    by_cases hp : p.1 = k
    · rw [if_pos hp] at h
      exact (keysOf_cons p rest ▸ List.mem_cons_of_mem _ h)
    · rw [if_neg hp, keysOf_cons] at h
      rcases List.mem_cons.1 h with h1 | h1
      · exact keysOf_cons p rest ▸ List.mem_cons.2 (Or.inl h1)
      · exact keysOf_cons p rest ▸ List.mem_cons.2 (Or.inr (ih h1))

theorem mem_keysOf_eraseEntry {a k : Key} {l : List (Key × Val)}
    (hnd : (keysOf l).Nodup) : a ∈ keysOf (eraseEntry k l) ↔ a ∈ keysOf l ∧ a ≠ k := by
  induction l with
  | nil => simp [eraseEntry, keysOf]
  | cons p rest ih =>
    rw [keysOf_cons] at hnd
    have hnd1 : p.1 ∉ keysOf rest := (List.nodup_cons.1 hnd).1
    have hnd2 : (keysOf rest).Nodup := (List.nodup_cons.1 hnd).2
    rw [eraseEntry]
    by_cases hp : p.1 = k
    · rw [if_pos hp, keysOf_cons]
      constructor
      · intro h
        refine ⟨List.mem_cons_of_mem _ h, ?_⟩
        intro hak
        exact hnd1 (hp ▸ hak ▸ h)
      · rintro ⟨h1, h2⟩
        rcases List.mem_cons.1 h1 with h3 | h3
        · exact absurd (h3.trans hp) h2
        · exact h3
    · rw [if_neg hp, keysOf_cons, keysOf_cons]
      constructor
      · intro h
        rcases List.mem_cons.1 h with h1 | h1
        · refine ⟨List.mem_cons.2 (Or.inl h1), ?_⟩
          intro hak
          exact hp (h1 ▸ hak)
        · obtain ⟨h2, h3⟩ := (ih hnd2).1 h1
          exact ⟨List.mem_cons.2 (Or.inr h2), h3⟩
      · rintro ⟨h1, h2⟩
        rcases List.mem_cons.1 h1 with h3 | h3
        · exact List.mem_cons.2 (Or.inl h3)
        · exact List.mem_cons.2 (Or.inr ((ih hnd2).2 ⟨h3, h2⟩))

theorem nodup_keysOf_eraseEntry {k : Key} {l : List (Key × Val)}
    (hnd : (keysOf l).Nodup) : (keysOf (eraseEntry k l)).Nodup := by
  induction l with
  | nil => simp [eraseEntry, keysOf]
  | cons p rest ih =>
    rw [keysOf_cons] at hnd
    have hnd1 : p.1 ∉ keysOf rest := (List.nodup_cons.1 hnd).1
    have hnd2 : (keysOf rest).Nodup := (List.nodup_cons.1 hnd).2
    rw [eraseEntry]
    by_cases hp : p.1 = k
    · rw [if_pos hp]; exact hnd2
    · rw [if_neg hp, keysOf_cons, List.nodup_cons]
      exact ⟨fun hm => hnd1 (mem_keysOf_eraseEntry_sub hm), ih hnd2⟩

theorem mem_mapInsertKey {a k : Key} {m : List Key} :
    a ∈ mapInsertKey k m ↔ a = k ∨ a ∈ m := by
  rw [mapInsertKey]
  by_cases h : k ∈ m
  · rw [if_pos h]
    constructor
    · exact Or.inr
    · rintro (rfl | h1)
      · exact h
      · exact h1
  · rw [if_neg h]
    exact List.mem_cons

theorem nodup_mapInsertKey {k : Key} {m : List Key} (hnd : m.Nodup) :
    (mapInsertKey k m).Nodup := by
  rw [mapInsertKey]
  by_cases h : k ∈ m
  · rwa [if_pos h]
  · rw [if_neg h, List.nodup_cons]
    exact ⟨h, hnd⟩

theorem length_mapInsertKey_le (k : Key) (m : List Key) :
    (mapInsertKey k m).length ≤ m.length + 1 := by
  rw [mapInsertKey]
  by_cases h : k ∈ m
  · rw [if_pos h]; omega
  · rw [if_neg h, List.length_cons]

theorem length_mapInsertKey_of_not_mem {k : Key} {m : List Key} (h : k ∉ m) :
    (mapInsertKey k m).length = m.length + 1 := by
  rw [mapInsertKey, if_neg h, List.length_cons]

theorem mem_mapEraseKey {a k : Key} {m : List Key} :
    a ∈ mapEraseKey k m ↔ a ∈ m ∧ a ≠ k := by
  rw [mapEraseKey]
  simp [List.mem_filter]

theorem nodup_mapEraseKey {k : Key} {m : List Key} (hnd : m.Nodup) :
    (mapEraseKey k m).Nodup :=
  List.Nodup.filter _ hnd

theorem mapEraseKey_of_not_mem {k : Key} {m : List Key} (h : k ∉ m) :
    mapEraseKey k m = m := by
  rw [mapEraseKey]
  apply List.filter_eq_self.2
  intro a ha
  simp only [decide_eq_true_eq]
  intro hak
  exact h (hak ▸ ha)

theorem length_mapEraseKey {k : Key} {m : List Key} (hnd : m.Nodup) (hk : k ∈ m) :
    (mapEraseKey k m).length + 1 = m.length := by
  induction m with
  | nil => cases hk
  | cons b rest ih =>
    have hnd1 : b ∉ rest := (List.nodup_cons.1 hnd).1
    have hnd2 : rest.Nodup := (List.nodup_cons.1 hnd).2
    rw [mapEraseKey] at *
    by_cases hb : b = k
    · subst hb
      rw [List.filter_cons_of_neg (by simp)]
      rw [List.filter_eq_self.2 (fun a ha => by
        simp only [decide_eq_true_eq]
        intro hab
        exact hnd1 (hab ▸ ha)), List.length_cons]
    · rw [List.filter_cons_of_pos (by simpa using hb), List.length_cons, List.length_cons]
      rcases List.mem_cons.1 hk with h1 | h1
      · exact absurd h1.symm hb
      · rw [← ih hnd2 h1]

/-! ### Lemmas about the modification map and the database rows -/

theorem modLookup_modSet_self (k : Key) (b : Bool) (m : List (Key × Bool)) :
    modLookup k (modSet k b m) = some b := by
  induction m with
  | nil => simp [modSet, modLookup]
  | cons p rest ih =>
    obtain ⟨k', b'⟩ := p
    rw [modSet]
    by_cases h : k' = k
    · rw [if_pos h, modLookup, if_pos rfl]
    · rw [if_neg h, modLookup, if_neg h]
      exact ih

theorem modLookup_modSet_other {a k : Key} (hne : k ≠ a) (b : Bool) (m : List (Key × Bool)) :
    modLookup a (modSet k b m) = modLookup a m := by
  induction m with
  | nil => simp [modSet, modLookup, if_neg hne]
  | cons p rest ih =>
    obtain ⟨k', b'⟩ := p
    rw [modSet]
    by_cases h : k' = k
    · rw [if_pos h, modLookup, if_neg hne, modLookup, if_neg (h ▸ hne)]
    · rw [if_neg h, modLookup, modLookup]
      by_cases h2 : k' = a
      · rw [if_pos h2, if_pos h2]
      · rw [if_neg h2, if_neg h2]
        exact ih

theorem modLookup_modErase_self (k : Key) (m : List (Key × Bool)) :
    modLookup k (modErase k m) = none := by
  induction m with
  | nil => rfl
  | cons p rest ih =>
    rw [modErase] at *
    by_cases h : p.1 = k
    · rw [List.filter_cons_of_neg (by simp [h])]
      exact ih
    · rw [List.filter_cons_of_pos (by simpa using h), modLookup, if_neg h]
      exact ih

theorem modLookup_modErase_other {a k : Key} (hne : k ≠ a) (m : List (Key × Bool)) :
    modLookup a (modErase k m) = modLookup a m := by
  induction m with
  | nil => rfl
  | cons p rest ih =>
    rw [modErase] at *
    by_cases h : p.1 = k
    · rw [List.filter_cons_of_neg (by simp [h]), modLookup, if_neg (h.symm ▸ hne ∘ Eq.symm ∘ Eq.symm)]
      · exact ih
    · rw [List.filter_cons_of_pos (by simpa using h), modLookup, modLookup]
      by_cases h2 : p.1 = a
      · rw [if_pos h2, if_pos h2]
      · rw [if_neg h2, if_neg h2]
        exact ih

theorem isModifiedIn_modErase_self (k : Key) (m : List (Key × Bool)) :
    isModifiedIn (modErase k m) k = false := by
  rw [isModifiedIn, modLookup_modErase_self]
  rfl

theorem isModifiedIn_modSet_self (k : Key) (b : Bool) (m : List (Key × Bool)) :
    isModifiedIn (modSet k b m) k = b := by
  rw [isModifiedIn, modLookup_modSet_self]
  rfl

theorem isModifiedIn_modSet_other {a k : Key} (hne : k ≠ a) (b : Bool) (m : List (Key × Bool)) :
    isModifiedIn (modSet k b m) a = isModifiedIn m a := by
  rw [isModifiedIn, modLookup_modSet_other hne, isModifiedIn]

theorem isModifiedIn_modErase_other {a k : Key} (hne : k ≠ a) (m : List (Key × Bool)) :
    isModifiedIn (modErase k m) a = isModifiedIn m a := by
  rw [isModifiedIn, modLookup_modErase_other hne, isModifiedIn]

theorem lookupRow_upsertRow_self (k : Key) (v : Val) (r : List (Key × Val)) :
    lookupRow k (upsertRow k v r) = some v := by
  induction r with
  | nil => simp [upsertRow, lookupRow]
  | cons p rest ih =>
    obtain ⟨k', v'⟩ := p
    rw [upsertRow]
    by_cases h : k' = k
    · rw [if_pos h, lookupRow, if_pos rfl]
    · rw [if_neg h, lookupRow, if_neg h]
      exact ih

theorem lookupRow_upsertRow_other {a k : Key} (hne : k ≠ a) (v : Val) (r : List (Key × Val)) :
    lookupRow a (upsertRow k v r) = lookupRow a r := by
  induction r with
  | nil => simp [upsertRow, lookupRow, if_neg hne]
  | cons p rest ih =>
    obtain ⟨k', v'⟩ := p
    rw [upsertRow]
    by_cases h : k' = k
    · rw [if_pos h, lookupRow, if_neg hne, lookupRow, if_neg (h ▸ hne)]
    · rw [if_neg h, lookupRow, lookupRow]
      by_cases h2 : k' = a
      · rw [if_pos h2, if_pos h2]
      · rw [if_neg h2, if_neg h2]
        exact ih

/-- Concatenating a single element fixes `getLastD`. -/
theorem getLastD_append_single {α : Type} (l : List α) (p d : α) :
    (l ++ [p]).getLastD d = p := by
  induction l generalizing d with
  | nil => rfl
  | cons a l ih =>
    rw [List.cons_append, List.getLastD_cons]
    exact ih a

theorem execBatch_rows_not_mem {k : Key} {b : List (Key × Val)}
    (h : k ∉ keysOf b) (r : List (Key × Val)) :
    lookupRow k (b.foldl (fun r p => upsertRow p.1 p.2 r) r) = lookupRow k r := by
  induction b generalizing r with
  | nil => rfl
  | cons p rest ih =>
    rw [keysOf_cons] at h
    rw [List.foldl_cons, ih (fun hm => h (List.mem_cons.2 (Or.inr hm))),
      lookupRow_upsertRow_other (fun he => h (List.mem_cons.2 (Or.inl he.symm)))]

theorem execBatch_rows_mem {k : Key} {v : Val} {b : List (Key × Val)}
    (hnd : (keysOf b).Nodup) (hm : (k, v) ∈ b) (r : List (Key × Val)) :
    lookupRow k (b.foldl (fun r p => upsertRow p.1 p.2 r) r) = some v := by
  induction b generalizing r with
  | nil => cases hm
  | cons p rest ih =>
    rw [keysOf_cons] at hnd
    have hnd1 : p.1 ∉ keysOf rest := (List.nodup_cons.1 hnd).1
    have hnd2 : (keysOf rest).Nodup := (List.nodup_cons.1 hnd).2
    rw [List.foldl_cons]
    rcases List.mem_cons.1 hm with h1 | h1
    · subst h1
      rw [execBatch_rows_not_mem hnd1]
      exact lookupRow_upsertRow_self k v r
    · exact ih hnd2 h1 _

/-! ### Structure of `put` -/

theorem keysOf_cons_pair (k : Key) (v : Val) (l : List (Key × Val)) :
    keysOf ((k, v) :: l) = k :: keysOf l := rfl

/-- `put` either does not evict (the map stayed within `m_max_cache_size`) or
pops the back of the freshly fronted list and erases that key from both maps.
In the eviction case the `writeToDB` branch is dead: the modification entry of
the evicted key was just erased, so `isModified` returns `false`. -/
theorem DataStore.put_cases (s : DataStore) (k v : String) :
    ((mapInsertKey k s.cache_map).length ≤ s.max_cache_size ∧
      s.put k v = { s with
        cache_list := (k, v) :: (if k ∈ s.cache_map then eraseEntry k s.cache_list else s.cache_list),
        cache_map := mapInsertKey k s.cache_map,
        mod_map := modSet k true s.mod_map }) ∨
    ((mapInsertKey k s.cache_map).length > s.max_cache_size ∧
      s.put k v = { s with
        cache_list := ((k, v) :: (if k ∈ s.cache_map then eraseEntry k s.cache_list else s.cache_list)).dropLast,
        cache_map := mapEraseKey (((k, v) :: (if k ∈ s.cache_map then eraseEntry k s.cache_list else s.cache_list)).getLastD ("", "")).1 (mapInsertKey k s.cache_map),
        mod_map := modErase (((k, v) :: (if k ∈ s.cache_map then eraseEntry k s.cache_list else s.cache_list)).getLastD ("", "")).1 (modSet k true s.mod_map) }) := by
  by_cases h : (mapInsertKey k s.cache_map).length > s.max_cache_size
  · right
    refine ⟨h, ?_⟩
    rw [DataStore.put]
    simp only [if_pos h, isModifiedIn_modErase_self, if_neg (by simp : ¬ (false = true))]
  · left
    refine ⟨Nat.le_of_not_lt h, ?_⟩
    rw [DataStore.put]
    simp only [if_neg h]

/-- `put` never touches the database, never logs a save, and never changes the
capacity: the write-back branch of the eviction path is unreachable because
the modification entry of the evicted key is erased before `isModified` is
consulted. -/
theorem DataStore.put_frame (s : DataStore) (k v : String) :
    (s.put k v).max_cache_size = s.max_cache_size ∧ (s.put k v).db = s.db ∧
    (s.put k v).saves = s.saves := by
  rcases s.put_cases k v with ⟨_, h⟩ | ⟨_, h⟩ <;> rw [h] <;> exact ⟨rfl, rfl, rfl⟩

/-- Internal consistency of a cache state: the key set of the iterator map is
exactly the key set of the recency list, and the list holds each key once. -/
def WF (s : DataStore) : Prop :=
  s.cache_map.Nodup ∧ (keysOf s.cache_list).Nodup ∧
  ∀ a, a ∈ s.cache_map ↔ a ∈ keysOf s.cache_list

/-- Fronting `(k, v)` after erasing the old node of `k` keeps the keys nodup
and only (at most) adds `k` to the key set. -/
theorem front_insert_facts {k : Key} (v : Val) {l : List (Key × Val)}
    (hnd : (keysOf l).Nodup) :
    (keysOf ((k, v) :: eraseEntry k l)).Nodup ∧
    (∀ a, a ∈ keysOf ((k, v) :: eraseEntry k l) ↔ a = k ∨ a ∈ keysOf l) := by
  constructor
  · rw [keysOf_cons_pair, List.nodup_cons]
    exact ⟨fun hm => ((mem_keysOf_eraseEntry hnd).1 hm).2 rfl, nodup_keysOf_eraseEntry hnd⟩
  · intro a
    rw [keysOf_cons_pair, List.mem_cons, mem_keysOf_eraseEntry hnd]
    by_cases hak : a = k
    · simp [hak]
    · simp [hak]

/-- The fronted list of `put` (before any eviction) has nodup keys, and its
key set is the updated map. -/
theorem put_list1_facts {s : DataStore} (h : WF s) (k v : String) :
    (keysOf ((k, v) :: (if k ∈ s.cache_map then eraseEntry k s.cache_list else s.cache_list))).Nodup ∧
    (∀ a, a ∈ mapInsertKey k s.cache_map ↔
      a ∈ keysOf ((k, v) :: (if k ∈ s.cache_map then eraseEntry k s.cache_list else s.cache_list))) := by
  obtain ⟨h1, h2, h3⟩ := h
  by_cases hf : k ∈ s.cache_map
  · rw [if_pos hf]
    obtain ⟨hn, hiff⟩ := front_insert_facts (k := k) v h2
    refine ⟨hn, fun a => ?_⟩
    rw [mem_mapInsertKey, hiff a, h3 a]
  · rw [if_neg hf]
    have hkl : k ∉ keysOf s.cache_list := fun hm => hf ((h3 k).2 hm)
    constructor
    · rw [keysOf_cons_pair, List.nodup_cons]
      exact ⟨hkl, h2⟩
    · intro a
      rw [mem_mapInsertKey, keysOf_cons_pair, List.mem_cons, h3 a]

/-- `put` preserves well-formedness and keeps the resident count within the
capacity bound. -/
theorem DataStore.put_inv {s : DataStore} (h : WF s) (k v : String) :
    WF (s.put k v) ∧
    (s.size ≤ s.max_cache_size → (s.put k v).size ≤ s.max_cache_size) := by
  obtain ⟨hln, hliff⟩ := put_list1_facts h k v
  obtain ⟨h1, _h2, _h3⟩ := h
  have hmn : (mapInsertKey k s.cache_map).Nodup := nodup_mapInsertKey h1
  rcases s.put_cases k v with ⟨hle, heq⟩ | ⟨hgt, heq⟩
  · rw [heq]
    refine ⟨⟨hmn, hln, hliff⟩, fun _ => hle⟩
  · rw [heq]
    rcases List.eq_nil_or_concat'
        ((k, v) :: (if k ∈ s.cache_map then eraseEntry k s.cache_list else s.cache_list)) with
      hnil | ⟨L, p, hconc⟩
    · cases hnil
    rw [hconc] at hln hliff ⊢
    rw [List.dropLast_concat, getLastD_append_single]
    rw [keysOf_append] at hln hliff
    have hLn : (keysOf L).Nodup ∧ p.1 ∉ keysOf L := by
      rw [List.nodup_append] at hln
      refine ⟨hln.1, fun hm => hln.2.2 hm ?_⟩
      rw [keysOf]
      simp
    have hpmem : p.1 ∈ mapInsertKey k s.cache_map := by
      rw [hliff p.1, List.mem_append]
      right
      rw [keysOf]
      simp
    constructor
    · refine ⟨nodup_mapEraseKey hmn, hLn.1, fun a => ?_⟩
      rw [mem_mapEraseKey, hliff a, List.mem_append]
      constructor
      · rintro ⟨h4 | h4, h5⟩
        · exact h4
        · rw [keysOf] at h4
          simp at h4
          exact absurd h4 h5
      · intro h4
        exact ⟨Or.inl h4, fun he => hLn.2 (he ▸ h4)⟩
    · intro hsz
      have hcnt := length_mapEraseKey hmn hpmem
      have hup := length_mapInsertKey_le k s.cache_map
      rw [DataStore.size] at hsz ⊢
      simp only
      omega


/-- With capacity at least 1, after `put` the key is resident, at the front of
the recency list, and marked modified: the eviction (if any) pops a strictly
older entry. -/
theorem DataStore.put_post {s : DataStore} (hWF : WF s)
    (hcap : 1 ≤ s.max_cache_size) (k v : String) :
    k ∈ (s.put k v).cache_map ∧
    (s.put k v).cache_list.head? = some (k, v) ∧
    isModifiedIn (s.put k v).mod_map k = true := by
  obtain ⟨hln, hliff⟩ := put_list1_facts hWF k v
  have hmn : (mapInsertKey k s.cache_map).Nodup := nodup_mapInsertKey hWF.1
  have hkmem : k ∈ mapInsertKey k s.cache_map := mem_mapInsertKey.2 (Or.inl rfl)
  rcases s.put_cases k v with ⟨_, heq⟩ | ⟨hgt, heq⟩
  · rw [heq]
    exact ⟨hkmem, rfl, isModifiedIn_modSet_self k true s.mod_map⟩
  · have hlen : (mapInsertKey k s.cache_map).length =
        ((k, v) :: (if k ∈ s.cache_map then eraseEntry k s.cache_list else s.cache_list)).length := by
      have hperm := (List.perm_ext_iff_of_nodup hmn hln).2 hliff
      rw [hperm.length_eq]
      simp [keysOf]
    rcases hrest : (if k ∈ s.cache_map then eraseEntry k s.cache_list else s.cache_list) with
      _ | ⟨r, rest0⟩
    · rw [hrest] at hlen
      simp at hlen
      omega
    rcases List.eq_nil_or_concat' (r :: rest0) with hnil | ⟨L, p, hconc⟩
    · cases hnil
    have hknotin : k ∉ keysOf (r :: rest0) := by
      rw [hrest, keysOf_cons_pair, List.nodup_cons] at hln
      exact hln.1
    have hp1mem : p.1 ∈ keysOf (r :: rest0) := by
      have hpm : p ∈ r :: rest0 := by
        rw [hconc]
        exact List.mem_append_right _ (by simp)
      exact List.mem_map.2 ⟨p, hpm, rfl⟩
    have hpk : p.1 ≠ k := fun he => hknotin (he ▸ hp1mem)
    rw [heq, hrest, hconc]
    have hsplit : (k, v) :: (L ++ [p]) = ((k, v) :: L) ++ [p] := rfl
    rw [hsplit, getLastD_append_single, List.dropLast_concat]
    refine ⟨mem_mapEraseKey.2 ⟨hkmem, Ne.symm hpk⟩, rfl, ?_⟩
    rw [isModifiedIn_modErase_other hpk, isModifiedIn_modSet_self]

/-- Inserting a fresh key into a full cache (capacity at least 1) evicts
exactly the back of the recency list — the least-recently-used resident —
keeps the new key resident, and leaves the resident count unchanged. -/
theorem DataStore.put_evict {s : DataStore} (hWF : WF s) (k v : String)
    (hk : k ∉ s.cache_map) (hcap : 1 ≤ s.max_cache_size)
    (hfull : s.max_cache_size ≤ s.size) :
    (s.cache_list.getLastD ("", "")).1 ∉ (s.put k v).cache_map ∧
    k ∈ (s.put k v).cache_map ∧
    (s.put k v).size = s.size := by
  have hmn : (mapInsertKey k s.cache_map).Nodup := nodup_mapInsertKey hWF.1
  have hkmem : k ∈ mapInsertKey k s.cache_map := mem_mapInsertKey.2 (Or.inl rfl)
  have hm1len : (mapInsertKey k s.cache_map).length = s.cache_map.length + 1 :=
    length_mapInsertKey_of_not_mem hk
  have hfull' : s.max_cache_size ≤ s.cache_map.length := hfull
  rcases s.put_cases k v with ⟨hle, _⟩ | ⟨_, heq⟩
  · omega
  · have hlne : s.cache_list ≠ [] := by
      intro hnil
      have hlen0 : s.cache_map.length ≥ 1 := le_trans hcap hfull'
      rcases hmem : s.cache_map with _ | ⟨a, m0⟩
      · rw [hmem] at hlen0
        simp at hlen0
      · have ham : a ∈ s.cache_map := by
          rw [hmem]
          exact List.mem_cons_self a m0
        have := (hWF.2.2 a).1 ham
        rw [hnil] at this
        cases this
    rcases List.eq_nil_or_concat' s.cache_list with hnil | ⟨L, p, hconc⟩
    · exact absurd hnil hlne
    have hp1cl : p.1 ∈ keysOf s.cache_list := by
      have hpm : p ∈ s.cache_list := by
        rw [hconc]
        exact List.mem_append_right _ (by simp)
      exact List.mem_map.2 ⟨p, hpm, rfl⟩
    have hp1map : p.1 ∈ s.cache_map := (hWF.2.2 p.1).2 hp1cl
    have hkp : k ≠ p.1 := fun he => hk (he ▸ hp1map)
    have hp1m1 : p.1 ∈ mapInsertKey k s.cache_map := mem_mapInsertKey.2 (Or.inr hp1map)
    rw [heq, if_neg hk, hconc]
    have hsplit : (k, v) :: (L ++ [p]) = ((k, v) :: L) ++ [p] := rfl
    rw [hsplit, getLastD_append_single, getLastD_append_single, List.dropLast_concat]
    refine ⟨fun hmem => (mem_mapEraseKey.1 hmem).2 rfl, mem_mapEraseKey.2 ⟨hkmem, hkp⟩, ?_⟩
    have hcnt := length_mapEraseKey hmn hp1m1
    rw [DataStore.size, DataStore.size]
    simp only
    omega

/-! ### Structure of `get` -/

/-- A hit splices the node to the front and returns its value; nothing else
changes — in particular no modification flag and no database interaction. -/
theorem DataStore.get_hit {s : DataStore} {k : String} (hk : k ∈ s.cache_map) :
    s.get k = ((lookupRow k s.cache_list).getD "",
      { s with cache_list :=
          (k, (lookupRow k s.cache_list).getD "") :: eraseEntry k s.cache_list }) := by
  rw [DataStore.get, if_pos hk]

/-- A miss whose database read fails returns `""` and leaves the state
untouched. -/
theorem DataStore.get_fail {s : DataStore} {k : String} (hk : k ∉ s.cache_map)
    (hf : k ∈ s.db.failing) : s.get k = ("", s) := by
  rw [DataStore.get, if_neg hk]
  simp only [readFromDB, if_pos hf]
  simp

/-- A miss whose database read succeeds (including reading a key absent from
the rows, which yields `""`) inserts the value via `put` and then overwrites
the modification flag with `false`; when the key survived the insertion the
freshly stored value is returned. -/
theorem DataStore.get_miss_resident {s : DataStore} {k : String} (hk : k ∉ s.cache_map)
    (hf : k ∉ s.db.failing)
    (hres : k ∈ (s.put k ((lookupRow k s.db.rows).getD "")).cache_map) :
    s.get k = ((lookupRow k (s.put k ((lookupRow k s.db.rows).getD "")).cache_list).getD "",
      { s.put k ((lookupRow k s.db.rows).getD "") with
        mod_map := modSet k false (s.put k ((lookupRow k s.db.rows).getD "")).mod_map }) := by
  rw [DataStore.get, if_neg hk]
  simp only [readFromDB, if_neg hf, if_pos hres]
  simp

/-- A miss whose database read succeeds but whose insertion immediately
evicted the key again (capacity 0) returns `""`. -/
theorem DataStore.get_miss_evicted {s : DataStore} {k : String} (hk : k ∉ s.cache_map)
    (hf : k ∉ s.db.failing)
    (hres : k ∉ (s.put k ((lookupRow k s.db.rows).getD "")).cache_map) :
    s.get k = ("",
      { s.put k ((lookupRow k s.db.rows).getD "") with
        mod_map := modSet k false (s.put k ((lookupRow k s.db.rows).getD "")).mod_map }) := by
  rw [DataStore.get, if_neg hk]
  simp only [readFromDB, if_neg hf, if_neg hres]
  simp

/-- `get` never writes to the database, never logs a save, and never changes
the capacity. -/
theorem DataStore.get_frame (s : DataStore) (k : String) :
    (s.get k).2.max_cache_size = s.max_cache_size ∧ (s.get k).2.db = s.db ∧
    (s.get k).2.saves = s.saves := by
  by_cases hk : k ∈ s.cache_map
  · rw [DataStore.get_hit hk]
    exact ⟨rfl, rfl, rfl⟩
  · by_cases hf : k ∈ s.db.failing
    · rw [DataStore.get_fail hk hf]
      exact ⟨rfl, rfl, rfl⟩
    · obtain ⟨hp1, hp2, hp3⟩ := s.put_frame k ((lookupRow k s.db.rows).getD "")
      by_cases hres : k ∈ (s.put k ((lookupRow k s.db.rows).getD "")).cache_map
      · rw [DataStore.get_miss_resident hk hf hres]
        exact ⟨hp1, hp2, hp3⟩
      · rw [DataStore.get_miss_evicted hk hf hres]
        exact ⟨hp1, hp2, hp3⟩

/-- `get` preserves well-formedness and the capacity bound on the resident
count. -/
theorem DataStore.get_inv {s : DataStore} (h : WF s) (k : String) :
    WF ((s.get k).2) ∧
    (s.size ≤ s.max_cache_size → (s.get k).2.size ≤ s.max_cache_size) := by
  by_cases hk : k ∈ s.cache_map
  · rw [DataStore.get_hit hk]
    obtain ⟨h1, h2, h3⟩ := h
    obtain ⟨hn, hiff⟩ := front_insert_facts (k := k) ((lookupRow k s.cache_list).getD "") h2
    refine ⟨⟨h1, hn, fun a => ?_⟩, fun hsz => hsz⟩
    rw [hiff a]
    constructor
    · intro ha
      exact Or.inr ((h3 a).1 ha)
    · rintro (rfl | ha)
      · exact hk
      · exact (h3 a).2 ha
  · by_cases hf : k ∈ s.db.failing
    · rw [DataStore.get_fail hk hf]
      exact ⟨h, fun hsz => hsz⟩
    · obtain ⟨hw, hs⟩ := DataStore.put_inv h k ((lookupRow k s.db.rows).getD "")
      by_cases hres : k ∈ (s.put k ((lookupRow k s.db.rows).getD "")).cache_map
      · rw [DataStore.get_miss_resident hk hf hres]
        exact ⟨hw, hs⟩
      · rw [DataStore.get_miss_evicted hk hf hres]
        exact ⟨hw, hs⟩

/-! ### Invariants along operation sequences -/

/-- The invariant every reachable state satisfies: internal consistency plus
the capacity bound. -/
def Inv (s : DataStore) : Prop :=
  WF s ∧ s.size ≤ s.max_cache_size

theorem step_inv {s : DataStore} (h : Inv s) (op : Op) : Inv (step s op) := by
  obtain ⟨hw, hsz⟩ := h
  cases op with
  | put k v =>
    obtain ⟨hw2, hsz2⟩ := DataStore.put_inv hw k v
    have hcap := (s.put_frame k v).1
    exact ⟨hw2, hcap ▸ hsz2 hsz⟩
  | get k =>
    obtain ⟨hw2, hsz2⟩ := DataStore.get_inv hw k
    have hcap := (s.get_frame k).1
    exact ⟨hw2, hcap ▸ hsz2 hsz⟩
  | contains k => exact ⟨hw, hsz⟩
  | size => exact ⟨hw, hsz⟩

theorem step_frame (s : DataStore) (op : Op) :
    (step s op).max_cache_size = s.max_cache_size ∧ (step s op).db = s.db ∧
    (step s op).saves = s.saves := by
  cases op with
  | put k v => exact s.put_frame k v
  | get k => exact s.get_frame k
  | contains k => exact ⟨rfl, rfl, rfl⟩
  | size => exact ⟨rfl, rfl, rfl⟩

theorem run_inv {s : DataStore} (h : Inv s) (ops : List Op) : Inv (run s ops) := by
  induction ops generalizing s with
  | nil => exact h
  | cons op ops ih =>
    rw [run, List.foldl_cons]
    exact ih (step_inv h op)

theorem run_frame (s : DataStore) (ops : List Op) :
    (run s ops).max_cache_size = s.max_cache_size ∧ (run s ops).db = s.db ∧
    (run s ops).saves = s.saves := by
  induction ops generalizing s with
  | nil => exact ⟨rfl, rfl, rfl⟩
  | cons op ops ih =>
    rw [run, List.foldl_cons]
    obtain ⟨h1, h2, h3⟩ := ih (step s op)
    obtain ⟨g1, g2, g3⟩ := step_frame s op
    exact ⟨h1.trans g1, h2.trans g2, h3.trans g3⟩

theorem init_inv (cap : Nat) (db : DB) : Inv (init cap db) := by
  refine ⟨⟨List.nodup_nil, List.nodup_nil, fun a => ?_⟩, Nat.zero_le cap⟩
  simp [init, keysOf]

/-! ### Further helpers for the claims -/

/-- If the key survived `put`, the front of the list is its new pair, so the
list lookup finds the freshly stored value.  This holds for an arbitrary
state: the only way the key is popped again is the capacity-0 self-eviction,
which also removes it from the map. -/
theorem DataStore.put_lookup_self (s : DataStore) (k v : String)
    (hres : k ∈ (s.put k v).cache_map) :
    lookupRow k (s.put k v).cache_list = some v := by
  rcases s.put_cases k v with ⟨_, heq⟩ | ⟨_, heq⟩
  · rw [heq]
    show lookupRow k
      ((k, v) :: (if k ∈ s.cache_map then eraseEntry k s.cache_list else s.cache_list)) = some v
    rw [lookupRow, if_pos rfl]
  · rcases hrest : (if k ∈ s.cache_map then eraseEntry k s.cache_list else s.cache_list) with
      _ | ⟨r, rest0⟩
    · rw [heq, hrest] at hres
      exact absurd rfl (mem_mapEraseKey.1 hres).2
    · rw [heq, hrest]
      show lookupRow k (((k, v) :: r :: rest0).dropLast) = some v
      have hdl : ((k, v) :: r :: rest0).dropLast = (k, v) :: (r :: rest0).dropLast := rfl
      rw [hdl, lookupRow, if_pos rfl]

/-- In a list with nodup keys, an entry is determined by its key. -/
theorem keysOf_nodup_key_inj {l : List (Key × Val)} (h : (keysOf l).Nodup)
    {p q : Key × Val} (hp : p ∈ l) (hq : q ∈ l) (he : p.1 = q.1) : p = q := by
  induction l with
  | nil => cases hp
  | cons a rest ih =>
    rw [keysOf_cons, List.nodup_cons] at h
    rcases List.mem_cons.1 hp with hp1 | hp1 <;> rcases List.mem_cons.1 hq with hq1 | hq1
    · exact hp1.trans hq1.symm
    · exact absurd (List.mem_map.2 ⟨q, hq1, (hp1 ▸ he).symm⟩) h.1
    · exact absurd (List.mem_map.2 ⟨p, hp1, hq1 ▸ he⟩) h.1
    · exact ih h.2 hp1 hq1

/-- The keys of the purge batch are nodup whenever the list keys are. -/
theorem purgeBatch_keys_nodup {s : DataStore} (h : (keysOf s.cache_list).Nodup) :
    (keysOf s.purgeBatch).Nodup := by
  rw [DataStore.purgeBatch]
  exact List.Nodup.sublist ((List.filter_sublist s.cache_list).map Prod.fst) h

/-- A clean resident key does not occur among the purge batch keys. -/
theorem purgeBatch_not_mem_of_clean {s : DataStore} (h : (keysOf s.cache_list).Nodup)
    {p : Key × Val} (hp : p ∈ s.cache_list)
    (hclean : isModifiedIn s.mod_map p.1 = false) : p.1 ∉ keysOf s.purgeBatch := by
  intro hm
  obtain ⟨q, hq, hq1⟩ := List.mem_map.1 hm
  have hq2 : q ∈ s.cache_list ∧ isModifiedIn s.mod_map q.1 = true := by
    have := List.mem_filter.1 hq
    simpa using this
  have : p = q := keysOf_nodup_key_inj h hp hq2.1 hq1.symm
  rw [this, hq2.2] at hclean
  cases hclean

/-! ### The claims -/

/-- Claim C1 (code behaviour at the failing input): with capacity 1, after
`put a one` the key `a` is marked modified, yet the eviction caused by
`put b two` invokes no database write at all — the modification entry of the
evicted key is erased before `isModified` is consulted, so the write-back
branch never fires and both the save log and the table rows stay empty. -/
theorem C1_dirty_eviction_writes_nothing :
    isModifiedIn (run (init 1 ⟨[], []⟩) [Op.put "a" "one"]).mod_map "a" = true ∧
    (run (init 1 ⟨[], []⟩) [Op.put "a" "one", Op.put "b" "two"]).cache_map = ["b"] ∧
    (run (init 1 ⟨[], []⟩) [Op.put "a" "one", Op.put "b" "two"]).saves = [] ∧
    (run (init 1 ⟨[], []⟩) [Op.put "a" "one", Op.put "b" "two"]).db.rows = [] :=
  ⟨rfl, rfl, rfl, rfl⟩

/-- Claim C2, counterexample: for a key absent from both the cache and the
store (and with no store error), the SELECT succeeds with zero rows, so `get`
returns `""` but INSERTS the pair `(k, "")` into the recency list, the index
and the dirty tracker (clean) — the state is not left unchanged. -/
theorem C2_absent_key_inserts_entry :
    ((init 2 ⟨[], []⟩).get "k").1 = "" ∧
    ((init 2 ⟨[], []⟩).get "k").2.cache_map = ["k"] ∧
    ((init 2 ⟨[], []⟩).get "k").2.cache_list = [("k", "")] ∧
    isModifiedIn ((init 2 ⟨[], []⟩).get "k").2.mod_map "k" = false :=
  ⟨rfl, rfl, rfl, rfl⟩

/-- Claim C2, amended: for every key not resident in the cache, if the
PersistentStore load fails with a store-level error, `get` returns the
"not found" result `""` and leaves the cache state entirely unchanged. -/
theorem C2_load_error_leaves_state_unchanged (s : DataStore) (k : String)
    (hk : k ∉ s.cache_map) (hf : k ∈ s.db.failing) :
    s.get k = ("", s) :=
  DataStore.get_fail hk hf

/-- Claim C2, witness: a concrete erroring key on a fresh store. -/
theorem C2_load_error_witness :
    (init 1 ⟨[], ["k"]⟩).get "k" = ("", init 1 ⟨[], ["k"]⟩) :=
  C2_load_error_leaves_state_unchanged (init 1 ⟨[], ["k"]⟩) "k" (by decide) (by decide)

/-- Claim C3: after any finite sequence of operations (puts, gets — which
perform the internal reload-puts — contains, size) the resident count is at
most the capacity fixed at construction. -/
theorem C3_bounded_residency (cap : Nat) (db : DB) (ops : List Op) :
    (run (init cap db) ops).size ≤ cap := by
  have h := (run_inv (init_inv cap db) ops).2
  rw [(run_frame (init cap db) ops).1] at h
  exact h

/-- Claim C4, counterexample: with capacity 0, immediately after
`put "a" "b"` the cache holds nothing, so `a` is not the most-recently-used
resident key (there is no resident key and no front). -/
theorem C4_cap0_put_not_front :
    ((init 0 ⟨[], []⟩).put "a" "b").cache_list = [] ∧
    ((init 0 ⟨[], []⟩).put "a" "b").cache_map = [] :=
  ⟨rfl, rfl⟩

/-- Claim C4, amended (capacity at least 1): in every reachable state, after
`put k v` the pair `(k, v)` is at the front of the recency list; after a hit
`get k` the key `k` is at the front; and when a put of a non-resident key
finds the cache full, the key evicted is the back of the recency list — the
least-recently-used resident — while `k` itself stays resident. -/
theorem C4_recency_order (cap : Nat) (db : DB) (ops : List Op) (k v : String)
    (hcap : 1 ≤ cap) :
    ((run (init cap db) ops).put k v).cache_list.head? = some (k, v) ∧
    (k ∈ (run (init cap db) ops).cache_map →
      (keysOf ((run (init cap db) ops).get k).2.cache_list).head? = some k) ∧
    (k ∉ (run (init cap db) ops).cache_map →
      cap ≤ (run (init cap db) ops).size →
      (((run (init cap db) ops).cache_list.getLastD ("", "")).1 ∉
          ((run (init cap db) ops).put k v).cache_map ∧
        k ∈ ((run (init cap db) ops).put k v).cache_map)) := by
  have hInv := run_inv (init_inv cap db) ops
  have hmax := (run_frame (init cap db) ops).1
  have hcap' : 1 ≤ (run (init cap db) ops).max_cache_size := by
    rw [hmax]
    exact hcap
  refine ⟨(DataStore.put_post hInv.1 hcap' k v).2.1, fun hk => ?_, fun hk hfull => ?_⟩
  · rw [DataStore.get_hit hk]
    show (keysOf ((k, (lookupRow k (run (init cap db) ops).cache_list).getD "") ::
      eraseEntry k (run (init cap db) ops).cache_list)).head? = some k
    rw [keysOf_cons_pair]
    rfl
  · have hfull' : (run (init cap db) ops).max_cache_size ≤ (run (init cap db) ops).size := by
      rw [hmax]
      exact hfull
    obtain ⟨h1, h2, _⟩ := DataStore.put_evict hInv.1 k v hk hcap' hfull'
    exact ⟨h1, h2⟩

/-- Claim C4, witness: capacity 1 with resident `x`; putting fresh `a` fronts
`(a, b)`, evicts the least-recently-used `x`, and keeps `a` resident. -/
theorem C4_recency_witness :
    ((run (init 1 ⟨[], []⟩) [Op.put "x" "1"]).put "a" "b").cache_list.head? = some ("a", "b") ∧
    "x" ∉ ((run (init 1 ⟨[], []⟩) [Op.put "x" "1"]).put "a" "b").cache_map ∧
    "a" ∈ ((run (init 1 ⟨[], []⟩) [Op.put "x" "1"]).put "a" "b").cache_map := by
  have h := C4_recency_order 1 ⟨[], []⟩ [Op.put "x" "1"] "a" "b" (by decide)
  exact ⟨h.1, (h.2.2 (by decide) (by decide)).1, (h.2.2 (by decide) (by decide)).2⟩

/-- Claim C5, counterexample: with capacity 0 (which the claim explicitly
includes), after `put "a" "b"` the key is not resident and not dirty — the
entry was immediately self-evicted. -/
theorem C5_cap0_put_not_resident :
    ((init 0 ⟨[], []⟩).put "a" "b").cache_map = [] ∧
    isModifiedIn ((init 0 ⟨[], []⟩).put "a" "b").mod_map "a" = false :=
  ⟨rfl, rfl⟩

/-- Claim C5, amended (capacity at least 1): in every reachable state, after
`put k v` the key is resident, its pair is at the front of the recency list,
it is marked dirty, and the resident count is at most the capacity. -/
theorem C5_put_postconditions (cap : Nat) (db : DB) (ops : List Op) (k v : String)
    (hcap : 1 ≤ cap) :
    k ∈ ((run (init cap db) ops).put k v).cache_map ∧
    ((run (init cap db) ops).put k v).cache_list.head? = some (k, v) ∧
    isModifiedIn ((run (init cap db) ops).put k v).mod_map k = true ∧
    ((run (init cap db) ops).put k v).size ≤ cap := by
  have hInv := run_inv (init_inv cap db) ops
  have hmax := (run_frame (init cap db) ops).1
  have hcap' : 1 ≤ (run (init cap db) ops).max_cache_size := by
    rw [hmax]
    exact hcap
  obtain ⟨h1, h2, h3⟩ := DataStore.put_post hInv.1 hcap' k v
  have hsz := (DataStore.put_inv hInv.1 k v).2 hInv.2
  rw [hmax] at hsz
  exact ⟨h1, h2, h3, hsz⟩

/-- Claim C5, witness: the simplest capacity-1 put. -/
theorem C5_put_witness :
    "a" ∈ ((run (init 1 ⟨[], []⟩) []).put "a" "b").cache_map ∧
    ((run (init 1 ⟨[], []⟩) []).put "a" "b").cache_list.head? = some ("a", "b") ∧
    isModifiedIn ((run (init 1 ⟨[], []⟩) []).put "a" "b").mod_map "a" = true ∧
    ((run (init 1 ⟨[], []⟩) []).put "a" "b").size ≤ 1 :=
  C5_put_postconditions 1 ⟨[], []⟩ [] "a" "b" (by decide)

theorem execBatch_rows (b : List (Key × Val)) (db : DB) :
    (execBatch b db).rows = b.foldl (fun r p => upsertRow p.1 p.2 r) db.rows := rfl


theorem DataStore.purgeToStorage_of_empty {s : DataStore}
    (hb : s.purgeBatch.isEmpty) : s.purgeToStorage = s := by
  rw [DataStore.purgeToStorage]
  simp [hb]

theorem DataStore.purgeToStorage_of_nonempty {s : DataStore}
    (hb : ¬ s.purgeBatch.isEmpty = true) :
    s.purgeToStorage =
      { s with db := execBatch s.purgeBatch s.db, saves := s.saves ++ s.purgeBatch } := by
  rw [DataStore.purgeToStorage]
  simp [hb]

theorem DataStore.destruct_of_empty {s : DataStore}
    (h : s.cache_list.isEmpty) : s.destruct = s := by
  rw [DataStore.destruct, if_pos h]

theorem DataStore.destruct_of_nonempty {s : DataStore}
    (h : ¬ s.cache_list.isEmpty = true) : s.destruct = s.purgeToStorage := by
  rw [DataStore.destruct, if_neg h]

/-- What the destructor does, for any state with nodup list keys: every dirty
resident entry is put into the batched statement (logged and visible in the
rows afterwards), every clean resident entry is skipped and its row is
untouched, and if no resident entry is dirty the database is not touched at
all. -/
theorem DataStore.destruct_spec {s : DataStore} (h : (keysOf s.cache_list).Nodup) :
    (∀ p ∈ s.cache_list, isModifiedIn s.mod_map p.1 = true →
        p ∈ s.destruct.saves ∧ lookupRow p.1 s.destruct.db.rows = some p.2) ∧
    (∀ p ∈ s.cache_list, isModifiedIn s.mod_map p.1 = false →
        p ∉ s.purgeBatch ∧ lookupRow p.1 s.destruct.db.rows = lookupRow p.1 s.db.rows) ∧
    ((∀ p ∈ s.cache_list, isModifiedIn s.mod_map p.1 = false) →
      s.destruct.db = s.db ∧ s.destruct.saves = s.saves) := by
  by_cases hemp : s.cache_list.isEmpty
  · rw [DataStore.destruct_of_empty hemp]
    have hnil : s.cache_list = [] := by
      rwa [List.isEmpty_iff] at hemp
    refine ⟨fun p hp => ?_, fun p hp => ?_, fun _ => ⟨rfl, rfl⟩⟩
    · rw [hnil] at hp
      cases hp
    · rw [hnil] at hp
      cases hp
  · rw [DataStore.destruct_of_nonempty hemp]
    by_cases hb : s.purgeBatch.isEmpty
    · rw [DataStore.purgeToStorage_of_empty hb]
      have hbnil : s.purgeBatch = [] := by
        rwa [List.isEmpty_iff] at hb
      refine ⟨fun p hp hdirty => ?_, fun p _ _ => ⟨?_, rfl⟩, fun _ => ⟨rfl, rfl⟩⟩
      · exfalso
        have hpb : p ∈ s.purgeBatch := List.mem_filter.2 ⟨hp, by simp [hdirty]⟩
        rw [hbnil] at hpb
        cases hpb
      · rw [hbnil]
        exact List.not_mem_nil p
    · rw [DataStore.purgeToStorage_of_nonempty hb]
      refine ⟨fun p hp hdirty => ?_, fun p hp hclean => ?_, fun hall => ?_⟩
      · have hpb : p ∈ s.purgeBatch := List.mem_filter.2 ⟨hp, by simp [hdirty]⟩
        refine ⟨List.mem_append_right _ hpb, ?_⟩
        show lookupRow p.1 (execBatch s.purgeBatch s.db).rows = some p.2
        rw [execBatch_rows]
        exact execBatch_rows_mem (purgeBatch_keys_nodup h) hpb s.db.rows
      · have hnm : p.1 ∉ keysOf s.purgeBatch := purgeBatch_not_mem_of_clean h hp hclean
        refine ⟨fun hpb => hnm (List.mem_map.2 ⟨p, hpb, rfl⟩), ?_⟩
        show lookupRow p.1 (execBatch s.purgeBatch s.db).rows = lookupRow p.1 s.db.rows
        rw [execBatch_rows]
        exact execBatch_rows_not_mem hnm s.db.rows
      · exfalso
        have hbne : s.purgeBatch ≠ [] := by
          intro hx
          exact hb (by rw [hx]; rfl)
        obtain ⟨q, hq⟩ := List.exists_mem_of_ne_nil _ hbne
        have hq2 := List.mem_filter.1 hq
        have hq3 : isModifiedIn s.mod_map q.1 = true := by
          simpa using hq2.2
        rw [hall q hq2.1] at hq3
        cases hq3

/-- Claim C6: on disposal of a reachable cache state, every resident entry
that is dirty is written to the store (it appears in the log of the batched
statement and its row afterwards holds its cached value), clean resident entries
are skipped and their rows untouched, and if no resident entry is dirty the
database and the save log are untouched. -/
theorem C6_teardown_flush (cap : Nat) (db : DB) (ops : List Op) :
    (∀ p ∈ (run (init cap db) ops).cache_list,
        isModifiedIn (run (init cap db) ops).mod_map p.1 = true →
        p ∈ (run (init cap db) ops).destruct.saves ∧
        lookupRow p.1 (run (init cap db) ops).destruct.db.rows = some p.2) ∧
    (∀ p ∈ (run (init cap db) ops).cache_list,
        isModifiedIn (run (init cap db) ops).mod_map p.1 = false →
        p ∉ (run (init cap db) ops).purgeBatch ∧
        lookupRow p.1 (run (init cap db) ops).destruct.db.rows =
          lookupRow p.1 (run (init cap db) ops).db.rows) ∧
    ((∀ p ∈ (run (init cap db) ops).cache_list,
        isModifiedIn (run (init cap db) ops).mod_map p.1 = false) →
      (run (init cap db) ops).destruct.db = (run (init cap db) ops).db ∧
      (run (init cap db) ops).destruct.saves = (run (init cap db) ops).saves) :=
  DataStore.destruct_spec (run_inv (init_inv cap db) ops).1.2.1

/-- Claim C6, witness: capacity 1 holding the dirty entry `(a, 1)`; the
destructor writes it and its row afterwards holds `1`. -/
theorem C6_teardown_witness :
    ("a", "1") ∈ (run (init 1 ⟨[], []⟩) [Op.put "a" "1"]).destruct.saves ∧
    lookupRow "a" (run (init 1 ⟨[], []⟩) [Op.put "a" "1"]).destruct.db.rows = some "1" :=
  (C6_teardown_flush 1 ⟨[], []⟩ [Op.put "a" "1"]).1 ("a", "1") (by decide) (by decide)

/-- Claim C7 (code behaviour at the failing input): with capacity 1, after
`put k v1` and `put k v2`, the eviction of `k` caused by `put j w` performs no
database write whatsoever: neither `v2` (which the claim requires to be
written exactly once) nor `v1` reaches the store, and the save log is empty. -/
theorem C7_coalesced_eviction_writes_nothing :
    (run (init 1 ⟨[], []⟩) [Op.put "k" "v1", Op.put "k" "v2", Op.put "j" "w"]).saves = [] ∧
    (run (init 1 ⟨[], []⟩) [Op.put "k" "v1", Op.put "k" "v2", Op.put "j" "w"]).db.rows = [] ∧
    "k" ∉ (run (init 1 ⟨[], []⟩) [Op.put "k" "v1", Op.put "k" "v2", Op.put "j" "w"]).cache_map :=
  ⟨rfl, rfl, by decide⟩

/-- Claim C8: no operation sequence ever invokes the store write during
operation — the save log stays empty and the database is left exactly as
constructed.  In particular a key loaded through a get-miss reload and later
evicted without an intervening put is never saved, and the contents of the store
for it are unchanged. -/
theorem C8_no_save_during_operation (cap : Nat) (db : DB) (ops : List Op) :
    (run (init cap db) ops).saves = [] ∧ (run (init cap db) ops).db = db := by
  obtain ⟨_, h2, h3⟩ := run_frame (init cap db) ops
  exact ⟨h3, h2⟩

/-- Claim C9: in every reachable state the key set of the iterator map equals
the key set of the recency list, and the recency list holds each resident key
exactly once. -/
theorem C9_index_recency_bijection (cap : Nat) (db : DB) (ops : List Op) :
    (∀ a, a ∈ (run (init cap db) ops).cache_map ↔
        a ∈ keysOf (run (init cap db) ops).cache_list) ∧
    (keysOf (run (init cap db) ops).cache_list).Nodup := by
  have h := (run_inv (init_inv cap db) ops).1
  exact ⟨h.2.2, h.2.1⟩

/-- Claim C10: for a non-resident key with no store error, `get` returns `""`
both when the key is absent from the store rows and when the stored value is
the empty string — absence and a stored empty value are indistinguishable
from the returned value. -/
theorem C10_get_absent_returns_empty (s : DataStore) (k : String)
    (hk : k ∉ s.cache_map) (hf : k ∉ s.db.failing) :
    (lookupRow k s.db.rows = none → (s.get k).1 = "") ∧
    (lookupRow k s.db.rows = some "" → (s.get k).1 = "") := by
  constructor
  · intro hnone
    by_cases hres : k ∈ (s.put k ((lookupRow k s.db.rows).getD "")).cache_map
    · rw [DataStore.get_miss_resident hk hf hres]
      show (lookupRow k (s.put k ((lookupRow k s.db.rows).getD "")).cache_list).getD "" = ""
      rw [DataStore.put_lookup_self s k _ hres, hnone]
      rfl
    · rw [DataStore.get_miss_evicted hk hf hres]
  · intro hsome
    by_cases hres : k ∈ (s.put k ((lookupRow k s.db.rows).getD "")).cache_map
    · rw [DataStore.get_miss_resident hk hf hres]
      show (lookupRow k (s.put k ((lookupRow k s.db.rows).getD "")).cache_list).getD "" = ""
      rw [DataStore.put_lookup_self s k _ hres, hsome]
      rfl
    · rw [DataStore.get_miss_evicted hk hf hres]

/-- Claim C10, witness: a store with only `("e", "")` stored; both the absent
key `q` and the key `e` with a stored empty value come back as `""`. -/
theorem C10_get_absent_witness :
    ((init 1 ⟨[("e", "")], []⟩).get "q").1 = "" ∧
    ((init 1 ⟨[("e", "")], []⟩).get "e").1 = "" :=
  ⟨(C10_get_absent_returns_empty (init 1 ⟨[("e", "")], []⟩) "q" (by decide) (by decide)).1
      (by decide),
    (C10_get_absent_returns_empty (init 1 ⟨[("e", "")], []⟩) "e" (by decide) (by decide)).2
      (by decide)⟩

end DataStoreModel
